import Mathlib

/-!
Verification of the trlx PPO training loop (`test_trl_deepspeed_accelerate.py`)
and the offline orchestrator (`trlx/orchestrator/offline_orchestrator.py`)
against their natural-language specification.

Tensors are embedded as lists (or index functions) over `ℚ` where the code uses
only ring operations, and over `ℝ` where `exp`/`sqrt` appear.  Python slicing
(`l[a:b]`, including negative indices) is embedded exactly.
-/

namespace TrlxSpec

/-! ### Python slicing semantics

`pyIdx len i` is the effective non-negative index python uses for position `i`
into a list of length `len` inside a slice: negative indices count from the
end (clamped below at 0), non-negative indices are clamped above at `len`. -/

def pyIdx (len : ℕ) (i : ℤ) : ℕ :=
  if i < 0 then ((len : ℤ) + i).toNat else min i.toNat len

/-- Python `l[a:b]`. -/
def pySlice {α : Type} (a b : ℤ) (l : List α) : List α :=
  (l.take (pyIdx l.length b)).drop (pyIdx l.length a)

/-- Python `l[a:]`. -/
def pyFrom {α : Type} (a : ℤ) (l : List α) : List α :=
  l.drop (pyIdx l.length a)

/-! ### GAE advantage computation (PPO loop, loop body lines 211-222)

The code is, per trajectory with response length `gen_len`:

    lastgaelam = 0
    advantages_reversed = []
    for t in reversed(range(gen_len)):
        nextvalues = values[:, t + 1] if t < gen_len - 1 else 0.0
        delta = rewards[:, t] + gamma * nextvalues - values[:, t]
        lastgaelam = delta + gamma * lam * lastgaelam
        advantages_reversed.append(lastgaelam)
    advantages = torch.stack(advantages_reversed[::-1])

Per-token tensors are embedded as index functions `ℕ → α`. -/

/-- One iteration of the code's backward GAE loop at index `t`, carrying
`lastgaelam`. -/
def gaeStep {α : Type} [CommRing α] (gamma lam : α) (rewards values : ℕ → α)
    (T t : ℕ) (lastgaelam : α) : α :=
  let nextvalues := if t < T - 1 then values (t + 1) else 0
  let delta := rewards t + gamma * nextvalues - values t
  delta + gamma * lam * lastgaelam

/-- The code's `advantages_reversed` list: `gaeRevList … k last` runs the loop
for `t = k-1, k-2, …, 0` starting from accumulator `last`, producing
the advantages in reverse (highest index first), exactly as the python
`for t in reversed(range(gen_len))` loop appends them. -/
def gaeRevList {α : Type} [CommRing α] (gamma lam : α) (rewards values : ℕ → α)
    (T : ℕ) : ℕ → α → List α
  | 0, _ => []
  | k + 1, last =>
      let g := gaeStep gamma lam rewards values T k last
      g :: gaeRevList gamma lam rewards values T k g

/-- The code's `advantages` tensor (`advantages_reversed[::-1]`) for a
response of length `T`. -/
def advList {α : Type} [CommRing α] (gamma lam : α) (rewards values : ℕ → α)
    (T : ℕ) : List α :=
  (gaeRevList gamma lam rewards values T T 0).reverse

/-! ### The spec's GAE recursion

Stated from the claim's words: `delta[t] = reward[t] + γ*value[t+1] - value[t]`
with `value[T] = 0`, and `advantage[t] = delta[t] + γ*λ*advantage[t+1]` with
`advantage[T] = 0`, for `t` from `T-1` down to `0`. -/

/-- The spec's `delta[t]` (with `value[T] = 0`). -/
def specDelta {α : Type} [CommRing α] (gamma : α) (rewards values : ℕ → α)
    (T t : ℕ) : α :=
  rewards t + gamma * (if t + 1 < T then values (t + 1) else 0) - values t

/-- `specAdvFrom … k` is the spec's `advantage[T - k]`, defined by the claimed
backward recursion; `k` counts the recursion steps remaining up from
`advantage[T] = 0`. -/
def specAdvFrom {α : Type} [CommRing α] (gamma lam : α) (rewards values : ℕ → α)
    (T : ℕ) : ℕ → α
  | 0 => 0
  | k + 1 =>
      specDelta gamma rewards values T (T - (k + 1)) +
        gamma * lam * specAdvFrom gamma lam rewards values T k

/-- The spec's `advantage[t]`. -/
def specAdvantage {α : Type} [CommRing α] (gamma lam : α) (rewards values : ℕ → α)
    (T t : ℕ) : α :=
  specAdvFrom gamma lam rewards values T (T - t)

/-! ### Per-token rewards (PPO loop, lines 189-197)

    kl = logprob - ref_logprob
    non_score_reward = -ppo_config['init_kl_coef'] * kl
    reward = non_score_reward.clone()
    reward[-1] += score
-/

/-- Per-token reward for one trajectory: `-beta * (logprob - ref_logprob)`
elementwise, with the scalar `score` added at the last position. -/
def computeReward (beta score : ℚ) (logprob ref_logprob : List ℚ) : List ℚ :=
  let non_score_reward := List.zipWith (fun l r => -beta * (l - r)) logprob ref_logprob
  non_score_reward.set (non_score_reward.length - 1)
    (non_score_reward.getD (non_score_reward.length - 1) 0 + score)

/-! ### Whitening and the per-minibatch advantage pipeline (lines 222-226)

    advantages = whiten(advantages)
    advantages = advantages.detach()

`whiten` itself lives in `trl.core`, which is not part of this repository's
sources. -/

/-- Mean of a list of reals (`torch.mean`). -/
noncomputable def listMean (l : List ℝ) : ℝ := l.sum / l.length

/-- Population variance of a list of reals. -/
noncomputable def popVar (l : List ℝ) : ℝ :=
  (l.map (fun x => (x - listMean l) ^ 2)).sum / l.length

/-- Stabilizing constant added to the variance inside `whiten`. -/
def whitenEps : ℝ := 1e-8

/-- Modelled from the spec: `trl.core.whiten` is absent from the sources;
§4.1 specifies "normalizes a tensor to zero mean, unit variance (population
statistics over the full tensor), numerically stabilized against zero
variance".  Embedded as `(x - mean) / sqrt(popVar + ε)` elementwise. -/
noncomputable def whitenR (l : List ℝ) : List ℝ :=
  l.map (fun x => (x - listMean l) / Real.sqrt (popVar l + whitenEps))

/-- A tensor together with its autograd tracking flag: `tracked = true` means
the tensor is still attached to the computation graph. -/
structure GradTensor where
  data : List ℝ
  tracked : Bool

/-- `Tensor.detach`: same data, removed from the computation graph. -/
def detachT (g : GradTensor) : GradTensor := ⟨g.data, false⟩

/-- `whiten` applied to a tracked tensor: whitening is a differentiable tensor
operation, so the tracking flag is preserved. -/
noncomputable def whitenT (g : GradTensor) : GradTensor := ⟨whitenR g.data, g.tracked⟩

/-- The code's advantage post-processing inside one minibatch step
(lines 222-226): whiten the per-trajectory advantages, then detach. -/
noncomputable def advPipeline (advantages : List ℝ) : GradTensor :=
  detachT (whitenT ⟨advantages, true⟩)

/-- The spec-claimed batch-level whitening (from the claim's words): whiten the
concatenation of all trajectories' advantages across the batch; the slice used
for trajectory `0` of a two-trajectory batch is the first chunk. -/
noncomputable def batchWhitenFirstChunk (adv0 adv1 : List ℝ) : List ℝ :=
  (whitenR (adv0 ++ adv1)).take adv0.length

/-! ### Clipped surrogate policy loss (lines 237-251)

    ratio = torch.exp(logprob - old_logprob)
    pg_losses = -advantages * ratio
    pg_losses2 = -advantages * torch.clamp(ratio, 1.0 - cliprange, 1.0 + cliprange)
    pg_loss = torch.mean(torch.max(pg_losses, pg_losses2))
-/

/-- `torch.clamp(x, lo, hi)`. -/
def clampR (x lo hi : ℝ) : ℝ := min (max x lo) hi

/-- `torch.exp(logprob - old_logprob)` elementwise. -/
noncomputable def ratios (logprob old_logprob : List ℝ) : List ℝ :=
  List.zipWith (fun l o => Real.exp (l - o)) logprob old_logprob

/-- The clipped surrogate policy loss `pg_loss` from the given advantages and
probability ratios. -/
noncomputable def pgLoss (cliprange : ℝ) (advantages ratio : List ℝ) : ℝ :=
  let pg_losses := List.zipWith (fun a r => -a * r) advantages ratio
  let pg_losses2 :=
    List.zipWith (fun a r => -a * clampR r (1 - cliprange) (1 + cliprange))
      advantages ratio
  listMean (List.zipWith max pg_losses pg_losses2)

/-- The policy loss as the minibatch step computes it: the raw per-trajectory
advantages go through `advPipeline` (whiten, detach) before `pgLoss` consumes
their data. -/
noncomputable def minibatchPolicyLoss (cliprange : ℝ) (advantages logprob old_logprob : List ℝ) : ℝ :=
  pgLoss cliprange (advPipeline advantages).data (ratios logprob old_logprob)

/-! ### Batched forward pass (STATE 2, lines 168-187)

    for i in range(int(bs/fbs)):
        query_batch = query_tensors[i*fbs:(i+1)*fbs]
        response_batch = response_tensors[i*fbs:(i+1)*fbs]
        input_ids = data_collator([torch.cat([q, r]) for q, r in zip(query_batch, response_batch)])["input_ids"]
        logits, _, v = gpt2_model(input_ids)
        ref_logits, _, _ = gpt2_model_ref(input_ids.cpu())
        logprobs = logprobs_from_logits(logits[:,:-1,:], input_ids[:,1:])
        ref_logprobs = logprobs_from_logits(ref_logits[:,:-1,:], input_ids[:,1:])
        for j in range(fbs):
            start = len(query_batch[j])-1
            end = len(query_batch[j]) + len(response_batch[j])-1
            all_values.append(v[j, start-1:end-1])
            all_logprobs.append(logprobs[j, start:end])
            all_ref_logprobs.append(ref_logprobs[j, start:end])

The two models and `logprobs_from_logits` are external; each is abstracted as
a per-sequence function from the (padded) token sequence to its per-position
outputs (`lpF`/`refLpF` already composed with the shift-by-one log-prob
gather, `vF` the value head).  `data_collator` pads every sequence of a
sub-batch on the left (the tokenizer's padding side) with the pad token up to
the longest sequence of that sub-batch. -/

/-- Longest length among a list of sequences. -/
def maxLenOf (seqs : List (List ℕ)) : ℕ :=
  (seqs.map List.length).foldr max 0

/-- Left-pad a sequence with `padId` up to length `m`. -/
def leftPad (padId m : ℕ) (s : List ℕ) : List ℕ :=
  List.replicate (m - s.length) padId ++ s

/-- The data collator: left-pad all sequences of a sub-batch to its longest
length. -/
def collate (padId : ℕ) (seqs : List (List ℕ)) : List (List ℕ) :=
  seqs.map (leftPad padId (maxLenOf seqs))

/-- The sub-batched STATE 2 evaluation.  Returns, in order, one
`(logprobs, ref_logprobs, values)` triple per trajectory visited by the loop.
The full-batch evaluation is the same function with `fbs = queries.length`. -/
def evalBatch (padId : ℕ) (lpF refLpF vF : List ℕ → List ℚ)
    (queries responses : List (List ℕ)) (fbs : ℕ) :
    List (List ℚ × List ℚ × List ℚ) :=
  ((List.range (queries.length / fbs)).map (fun (i : ℕ) =>
    let query_batch := pySlice ((i * fbs : ℕ) : ℤ) (((i + 1) * fbs : ℕ) : ℤ) queries
    let response_batch := pySlice ((i * fbs : ℕ) : ℤ) (((i + 1) * fbs : ℕ) : ℤ) responses
    let input_ids := collate padId (List.zipWith (· ++ ·) query_batch response_batch)
    (List.range fbs).map (fun j =>
      let seq := input_ids.getD j []
      let q := query_batch.getD j []
      let r := response_batch.getD j []
      let start : ℤ := (q.length : ℤ) - 1
      let stop : ℤ := (q.length : ℤ) + r.length - 1
      (pySlice start stop (lpF seq),
       pySlice start stop (refLpF seq),
       pySlice (start - 1) (stop - 1) (vF seq))))).flatten

/-- The STATE 2 extraction for a single unpadded trajectory `(q, r)`: what one
loop entry of `evalBatch` produces when the collator adds no padding (every
sequence already at the sub-batch maximum). -/
def evalOne (lpF refLpF vF : List ℕ → List ℚ) (q r : List ℕ) :
    List ℚ × List ℚ × List ℚ :=
  (pySlice ((q.length : ℤ) - 1) ((q.length : ℤ) + r.length - 1) (lpF (q ++ r)),
   pySlice ((q.length : ℤ) - 1) ((q.length : ℤ) + r.length - 1) (refLpF (q ++ r)),
   pySlice ((q.length : ℤ) - 1 - 1) ((q.length : ℤ) + r.length - 1 - 1) (vF (q ++ r)))

/-! ### Minibatch training loop (STATE 4, lines 199-260)

    idxs = list(range(bs))
    for _ in range(ppo_epochs):
        random.shuffle(idxs)
        for i in range(bs):
            idx = idxs[i]
            ...
            accelerator.backward(loss)
            accelerator.wait_for_everyone()
            optimizer.step()
            optimizer.zero_grad()

`random.shuffle` is external randomness: `shuffles e` is the content of `idxs`
during inner pass `e`, a permutation of `range(bs)`. -/

/-- The indices visited by one inner pass, in order (`idxs[i]` for
`i in range(bs)`). -/
def shuffledPass (bs : ℕ) (idxs : List ℕ) : List ℕ :=
  (List.range bs).map (fun i => idxs.getD i 0)

/-- Runs the whole STATE 4 loop, threading a state of (visited trajectory
indices, optimizer step count); every visit ends in exactly one
`optimizer.step()`. -/
def runInner (ppoEpochs bs : ℕ) (shuffles : ℕ → List ℕ) : List ℕ × ℕ :=
  (List.range ppoEpochs).foldl (fun acc e =>
    (List.range bs).foldl
      (fun acc2 i => (acc2.1 ++ [(shuffles e).getD i 0], acc2.2 + 1)) acc)
    ([], 0)

/-! ### Offline orchestrator: index construction (`make_experience`,
lines 77-92 of `offline_orchestrator.py`)

    length = 0
    isoutput = False
    actions_ixs = []
    for phrase in sample:
        if isoutput:
            actions_ixs.append(torch.arange(length - 1, length + len(phrase) - 1))
        length += len(phrase)
        isoutput = not isoutput
    states_ixs = torch.hstack((*actions_ixs, torch.tensor(length - 1)))
    all_dones.append(torch.tensor([1] * (len(states_ixs) - 1) + [0], dtype=int))
-/

/-- `torch.arange(a, b)` over the integers. -/
def arangeZ (a b : ℤ) : List ℤ :=
  (List.range (b - a).toNat).map (fun i => a + (i : ℤ))

/-- The per-phrase action index ranges, walking the sample with the running
`length` and the alternating `isoutput` flag. -/
def phraseRanges : List (List ℕ) → ℤ → Bool → List (List ℤ)
  | [], _, _ => []
  | phrase :: rest, length, isoutput =>
      if isoutput then
        arangeZ (length - 1) (length + phrase.length - 1) ::
          phraseRanges rest (length + phrase.length) (!isoutput)
      else
        phraseRanges rest (length + phrase.length) (!isoutput)

/-- `actions_ixs` of one sample, flattened (`torch.hstack(actions_ixs)`). -/
def actionsIxs (sample : List (List ℕ)) : List ℤ :=
  (phraseRanges sample 0 false).flatten

/-- Total token count of a sample (final value of `length`). -/
def sampleLen (sample : List (List ℕ)) : ℤ :=
  ((sample.map List.length).sum : ℕ)

/-- `states_ixs` of one sample: all action indices followed by the final
index `length - 1`. -/
def statesIxs (sample : List (List ℕ)) : List ℤ :=
  actionsIxs sample ++ [sampleLen sample - 1]

/-- The done flags of one sample: `[1] * (len(states_ixs) - 1) + [0]`. -/
def donesOf (sample : List (List ℕ)) : List ℤ :=
  List.replicate ((statesIxs sample).length - 1) 1 ++ [0]

/-! ### Offline orchestrator: reward normalization (lines 118-121)

    returns = (returns - returns.mean()) / (returns.std() + 1e-30)
    rewards = [torch.zeros(len(x)) for x in all_actions_ixs]
    for rs, ret in zip(rewards, returns):
        rs[-1] = ret

`torch.std` uses the unbiased (n-1 denominator) sample variance. -/

/-- Unbiased sample variance (`torch.var`, correction 1). -/
noncomputable def sampleVar (l : List ℝ) : ℝ :=
  (l.map (fun x => (x - listMean l) ^ 2)).sum / ((l.length : ℝ) - 1)

/-- `torch.std`. -/
noncomputable def sampleStd (l : List ℝ) : ℝ := Real.sqrt (sampleVar l)

/-- The batch reward normalization `(r - mean) / (std + 1e-30)`. -/
noncomputable def normalizeReturns (l : List ℝ) : List ℝ :=
  l.map (fun r => (r - listMean l) / (sampleStd l + 1e-30))

/-- One sample's per-action reward vector: `n` zeros with the normalized
scalar written at the last slot. -/
def rewardVec (n : ℕ) (ret : ℝ) : List ℝ :=
  (List.replicate n (0 : ℝ)).set (n - 1) ret

/-! ### `tokenize_dialogue` (lines 16-52 of `offline_orchestrator.py`)

The external tokenizer is abstracted away: a dialogue is embedded as the list
of per-phrase token lists `tokenizer(phrase).input_ids` (after the
eos-append on the raw final phrase).  The function's own `truncation_side`
argument is kept verbatim; the branching reads the tokenizer's
`truncation_side` attribute. -/

/-- The tokenizer attributes `tokenize_dialogue` reads. -/
structure TokenizerCfg where
  truncationSide : String
  bosTokenId : ℕ

/-- Total token count of the output turns (`sum(map(len, out))`). -/
def sumLens (out : List (List ℕ)) : ℕ := (out.map List.length).sum

/-- The left-truncation loop over the reversed dialogue: each phrase keeps its
last `ctx_length` tokens (`input_ids[-ctx_length:]`, python semantics), the
budget shrinks, and the loop breaks when the budget hits exactly 0.  The
result is the `out` list in dialogue order. -/
def tdLeftLoop : List (List ℕ) → ℤ → List (List ℕ)
  | [], _ => []
  | phrase :: rest, ctx_length =>
      let tokens := pyFrom (-ctx_length) phrase
      let ctx2 := ctx_length - tokens.length
      if ctx2 = 0 then [tokens] else tdLeftLoop rest ctx2 ++ [tokens]

/-- Left-truncation branch of `tokenize_dialogue`, including the odd-count
fixup: if the kept turn count is odd, pop the first token of the first turn
when the total is exactly `max_length`, then insert the synthetic
`[bos_token_id]` prompt turn at the front. -/
def tdLeft (bosId : ℕ) (maxLength : ℤ) (dialogue : List (List ℕ)) : List (List ℕ) :=
  if (tdLeftLoop dialogue.reverse maxLength).length % 2 = 1 then
    [bosId] ::
      (if (sumLens (tdLeftLoop dialogue.reverse maxLength) : ℤ) = maxLength then
        match tdLeftLoop dialogue.reverse maxLength with
        | [] => []
        | h :: t => h.tail :: t
      else tdLeftLoop dialogue.reverse maxLength)
  else tdLeftLoop dialogue.reverse maxLength

/-- The right-truncation loop: each phrase keeps its first `ctx_length` tokens
(`input_ids[:ctx_length]`), appended in dialogue order. -/
def tdRightLoop : List (List ℕ) → ℤ → List (List ℕ)
  | [], _ => []
  | phrase :: rest, ctx_length =>
      let tokens := pySlice 0 ctx_length phrase
      let ctx2 := ctx_length - tokens.length
      if ctx2 = 0 then [tokens] else tokens :: tdRightLoop rest ctx2

/-- `tokenize_dialogue`.  Its own `truncation_side` parameter is accepted but
never read; the branch is chosen by `tokenizer.truncation_side`. -/
def tokenize_dialogue (truncationSideArg : String) (tok : TokenizerCfg)
    (maxLength : ℤ) (dialogue : List (List ℕ)) : List (List ℕ) :=
  if tok.truncationSide = "left" then tdLeft tok.bosTokenId maxLength dialogue
  else if tok.truncationSide = "right" then tdRightLoop dialogue maxLength
  else []

/-! ### Concrete instances used in witnesses and counterexamples -/

/-- A model stub whose per-position log-prob output is the padded sequence
length at every position, with the contractual length `len - 1`. -/
def lpEx (s : List ℕ) : List ℚ := List.replicate (s.length - 1) (s.length : ℚ)

/-- A value-head stub whose output is the padded sequence length at every
position, with the contractual length `len`. -/
def vEx (s : List ℕ) : List ℚ := List.replicate s.length (s.length : ℚ)

/-- A concrete shuffle schedule for two trajectories. -/
def shufflesEx : ℕ → List ℕ := fun e => if e = 0 then [1, 0] else [0, 1]

/-- Concrete per-token data for witness instances. -/
def rEx : ℕ → ℚ := fun t => [(1 : ℚ), 2].getD t 0

/-- Concrete per-token values for witness instances. -/
def vQEx : ℕ → ℚ := fun t => [(3 : ℚ), 4].getD t 0

section Theorems

/-! ## C1: the GAE backward recursion -/

private theorem gaeRevList_eq_spec {α : Type} [CommRing α] (gamma lam : α)
    (r v : ℕ → α) (T : ℕ) :
    ∀ k, k ≤ T →
      gaeRevList gamma lam r v T k (specAdvFrom gamma lam r v T (T - k)) =
        ((List.range k).reverse).map (specAdvantage gamma lam r v T) := by
  intro k
  induction k with
  | zero => intro _; simp [gaeRevList]
  | succ k ih =>
      intro hk
      have hTk : T - k = (T - (k + 1)) + 1 := by omega
      have hstep :
          gaeStep gamma lam r v T k (specAdvFrom gamma lam r v T (T - (k + 1))) =
            specAdvFrom gamma lam r v T (T - k) := by
        rw [hTk]
        show _ = specDelta gamma r v T (T - ((T - (k+1)) + 1)) +
          gamma * lam * specAdvFrom gamma lam r v T (T - (k + 1))
        have h1 : T - ((T - (k + 1)) + 1) = k := by omega
        have h2 : (k < T - 1) = (k + 1 < T) := by
          apply propext; omega
        rw [h1]
        simp only [gaeStep, specDelta, h2]
      show gaeStep gamma lam r v T k (specAdvFrom gamma lam r v T (T - (k + 1))) ::
          gaeRevList gamma lam r v T k
            (gaeStep gamma lam r v T k (specAdvFrom gamma lam r v T (T - (k + 1)))) = _
      rw [hstep, ih (by omega)]
      simp [List.range_succ, specAdvantage]

/-- C1: for every trajectory (per-token rewards `r`, per-token values `v`,
response length `T`) the code's advantages list equals, position by position,
the spec's strictly backward GAE recursion
`advantage[t] = delta[t] + gamma*lam*advantage[t+1]` with
`delta[t] = reward[t] + gamma*value[t+1] - value[t]`, `value[T] = 0`,
`advantage[T] = 0`; in particular for a response of length 1 the advantage is
`reward[0] - value[0]`. -/
theorem claim_C1_gae_recursion {α : Type} [CommRing α] (gamma lam : α)
    (r v : ℕ → α) (T : ℕ) :
    advList gamma lam r v T =
        (List.range T).map (specAdvantage gamma lam r v T) ∧
      advList gamma lam r v 1 = [r 0 - v 0] := by
  constructor
  · have h := gaeRevList_eq_spec gamma lam r v T T le_rfl
    rw [Nat.sub_self] at h
    show (gaeRevList gamma lam r v T T (specAdvFrom gamma lam r v T 0)).reverse = _
    rw [h, ← List.map_reverse, List.reverse_reverse]
  · show (gaeRevList gamma lam r v 1 1 0).reverse = _
    simp only [gaeRevList, gaeStep]
    norm_num

/-! ## C2: per-token rewards -/

private theorem getD_set_last (l : List ℚ) (score : ℚ) (t : ℕ) (ht : t < l.length) :
    (l.set (l.length - 1) (l.getD (l.length - 1) 0 + score)).getD t 0 =
      l.getD t 0 + (if t = l.length - 1 then score else 0) := by
  by_cases hlast : t = l.length - 1
  · rw [List.getD_eq_getElem _ _ (by rw [List.length_set]; exact ht), List.getElem_set,
      if_pos (by omega), if_pos hlast, hlast]
  · rw [List.getD_eq_getElem _ _ (by rw [List.length_set]; exact ht), List.getElem_set,
      if_neg (by omega), if_neg hlast, add_zero, List.getD_eq_getElem _ _ ht]

private theorem getD_zipWith (f : ℚ → ℚ → ℚ) (l1 l2 : List ℚ) (t : ℕ)
    (h1 : t < l1.length) (h2 : t < l2.length) :
    (List.zipWith f l1 l2).getD t 0 = f (l1.getD t 0) (l2.getD t 0) := by
  rw [List.getD_eq_getElem _ _ (by rw [List.length_zipWith]; exact lt_min h1 h2),
    List.getElem_zipWith, List.getD_eq_getElem _ _ h1, List.getD_eq_getElem _ _ h2]

/-- C2: for every trajectory the per-token reward fed to the GAE recursion is
`-beta * (logprob[t] - ref_logprob[t])` at every generated token, and the
scalar score is added only at the last generated token. -/
theorem claim_C2_rewards (beta score : ℚ) (logprob ref_logprob : List ℚ)
    (hlen : logprob.length = ref_logprob.length) :
    ∀ t, t < logprob.length →
      (computeReward beta score logprob ref_logprob).getD t 0 =
        -beta * (logprob.getD t 0 - ref_logprob.getD t 0) +
          (if t = logprob.length - 1 then score else 0) := by
  intro t ht
  have hz : (List.zipWith (fun l r => -beta * (l - r)) logprob ref_logprob).length
      = logprob.length := by
    rw [List.length_zipWith, hlen, min_self]
  have htr : t < ref_logprob.length := hlen ▸ ht
  show ((List.zipWith (fun l r => -beta * (l - r)) logprob ref_logprob).set
      ((List.zipWith (fun l r => -beta * (l - r)) logprob ref_logprob).length - 1)
      ((List.zipWith (fun l r => -beta * (l - r)) logprob ref_logprob).getD
        ((List.zipWith (fun l r => -beta * (l - r)) logprob ref_logprob).length - 1) 0
        + score)).getD t 0 = _
  rw [getD_set_last _ score t (by rw [hz]; exact ht),
    getD_zipWith _ _ _ t ht htr, hz]

/-- Witness for C2 at `beta = 2`, `score = 5`, `logprob = [1,3]`,
`ref_logprob = [0,1]`, `t = 1`. -/
theorem claim_C2_rewards_witness :
    ([(1 : ℚ), 3] : List ℚ).length = ([(0 : ℚ), 1] : List ℚ).length ∧
      (computeReward 2 5 [1, 3] [0, 1]).getD 1 0 =
        -2 * (([(1 : ℚ), 3] : List ℚ).getD 1 0 - ([(0 : ℚ), 1] : List ℚ).getD 1 0) +
          (if 1 = ([(1 : ℚ), 3] : List ℚ).length - 1 then 5 else 0) :=
  ⟨rfl, claim_C2_rewards 2 5 [1, 3] [0, 1] rfl 1 (by decide)⟩

/-! ## C5: STATE 4 loop structure -/

private theorem foldl_visit_step (g : ℕ → ℕ) (l : List ℕ) (acc : List ℕ × ℕ) :
    l.foldl (fun acc2 i => (acc2.1 ++ [g i], acc2.2 + 1)) acc =
      (acc.1 ++ l.map g, acc.2 + l.length) := by
  induction l generalizing acc with
  | nil => simp
  | cons x xs ih =>
      rw [List.foldl_cons, ih]
      simp [add_comm, add_assoc, add_left_comm]

private theorem foldl_epochs (bs : ℕ) (shuffles : ℕ → List ℕ) (es : List ℕ)
    (acc : List ℕ × ℕ) :
    es.foldl (fun acc e =>
        (List.range bs).foldl
          (fun acc2 i => (acc2.1 ++ [(shuffles e).getD i 0], acc2.2 + 1)) acc) acc =
      (acc.1 ++ (es.map (fun e => shuffledPass bs (shuffles e))).flatten,
        acc.2 + es.length * bs) := by
  induction es generalizing acc with
  | nil => simp
  | cons e es ih =>
      rw [List.foldl_cons, ih, foldl_visit_step]
      simp only [List.map_cons, List.flatten_cons, List.append_assoc, List.length_cons,
        List.length_range, shuffledPass]
      have h2 : acc.2 + bs + es.length * bs = acc.2 + (es.length + 1) * bs := by ring
      rw [h2]

private theorem shuffledPass_eq_self (bs : ℕ) (l : List ℕ) (hl : l.length = bs) :
    shuffledPass bs l = l := by
  apply List.ext_getElem
  · simp [shuffledPass, hl]
  · intro n h1 h2
    simp only [shuffledPass, List.getElem_map, List.getElem_range]
    exact List.getD_eq_getElem _ _ h2

/-- C5: the STATE 4 optimization loop runs exactly `ppo_epochs` inner passes;
the visited index sequence is the concatenation of the per-pass shuffled index
lists; each pass (a permutation of `range bs`) visits every trajectory exactly
once; and the number of optimizer steps is exactly `ppo_epochs * bs`. -/
theorem claim_C5_minibatch_loop (ppoEpochs bs : ℕ) (shuffles : ℕ → List ℕ)
    (hperm : ∀ e ∈ List.range ppoEpochs, (shuffles e).Perm (List.range bs)) :
    (runInner ppoEpochs bs shuffles).1 =
        ((List.range ppoEpochs).map (fun e => shuffledPass bs (shuffles e))).flatten ∧
      (∀ e, e < ppoEpochs → ∀ j, j < bs → (shuffledPass bs (shuffles e)).count j = 1) ∧
      (runInner ppoEpochs bs shuffles).2 = ppoEpochs * bs := by
  have hrun := foldl_epochs bs shuffles (List.range ppoEpochs) ([], 0)
  refine ⟨?_, ?_, ?_⟩
  · show (runInner ppoEpochs bs shuffles).1 = _
    rw [show runInner ppoEpochs bs shuffles = _ from hrun]
    simp
  · intro e he j hj
    have hp := hperm e (List.mem_range.mpr he)
    have hlen : (shuffles e).length = bs := by
      rw [hp.length_eq, List.length_range]
    rw [shuffledPass_eq_self bs _ hlen, hp.count_eq]
    exact List.count_eq_one_of_mem (List.nodup_range _) (List.mem_range.mpr hj)
  · rw [show runInner ppoEpochs bs shuffles = _ from hrun]
    simp

/-- Witness for C5 at `ppo_epochs = 2`, `bs = 2` and the concrete shuffle
schedule `shufflesEx`. -/
theorem claim_C5_minibatch_loop_witness :
    (runInner 2 2 shufflesEx).2 = 2 * 2 ∧
      (shuffledPass 2 (shufflesEx 0)).count 1 = 1 :=
  ⟨(claim_C5_minibatch_loop 2 2 shufflesEx (by decide)).2.2,
    (claim_C5_minibatch_loop 2 2 shufflesEx (by decide)).2.1 0 (by decide) 1 (by decide)⟩

/-! ## C7: RolloutStorage index invariant -/

private theorem rep1_getD_last (n : ℕ) :
    (List.replicate n (1 : ℤ) ++ [0]).getD n 0 = 0 := by
  rw [List.getD_eq_getElem _ _ (by simp), List.getElem_append_right (by simp)]
  simp

private theorem rep1_getD_lt (n i : ℕ) (h : i < n) :
    (List.replicate n (1 : ℤ) ++ [0]).getD i 0 = 1 := by
  rw [List.getD_eq_getElem _ _ (by simp; omega),
    List.getElem_append_left (by simpa using h)]
  simp

/-- C7: for every sample built by `make_experience`, the state-index array is
exactly one element longer than the action-index array, the done-flag array
has one flag per state, its last entry is 0 and every other entry is 1. -/
theorem claim_C7_storage_invariant (sample : List (List ℕ)) :
    (statesIxs sample).length = (actionsIxs sample).length + 1 ∧
      (donesOf sample).length = (statesIxs sample).length ∧
      (donesOf sample).getD ((donesOf sample).length - 1) 0 = 0 ∧
      (∀ i, i < (donesOf sample).length - 1 → (donesOf sample).getD i 0 = 1) := by
  have hst : (statesIxs sample).length = (actionsIxs sample).length + 1 := by
    simp [statesIxs]
  have hd : (donesOf sample).length = (statesIxs sample).length := by
    simp only [donesOf, List.length_append, List.length_replicate]
    simp only [List.length_cons, List.length_nil]
    omega
  refine ⟨hst, hd, ?_, ?_⟩
  · have hlast : (donesOf sample).length - 1 = (statesIxs sample).length - 1 := by
      omega
    rw [hlast]
    exact rep1_getD_last _
  · intro i hi
    have hi' : i < (statesIxs sample).length - 1 := by omega
    exact rep1_getD_lt _ i hi'

/-- Witness for C7 at the two-turn sample `[[1], [2]]`. -/
theorem claim_C7_storage_invariant_witness :
    (statesIxs [[1], [2]]).length = (actionsIxs [[1], [2]]).length + 1 ∧
      (donesOf [[1], [2]]).getD 0 0 = 1 :=
  ⟨(claim_C7_storage_invariant [[1], [2]]).1,
    (claim_C7_storage_invariant [[1], [2]]).2.2.2 0 (by decide)⟩

/-! ## C10: the truncation_side parameter is never read -/

/-- C10: `tokenize_dialogue` returns the same output for any two values of its
`truncation_side` parameter; the truncation direction is determined solely by
the tokenizer's own `truncation_side` attribute. -/
theorem claim_C10_side_arg_unused (s1 s2 : String) (tok : TokenizerCfg)
    (maxLength : ℤ) (dialogue : List (List ℕ)) :
    tokenize_dialogue s1 tok maxLength dialogue =
      tokenize_dialogue s2 tok maxLength dialogue := rfl

/-! ## C8: reward normalization in make_experience -/

/-- C8: the zero-variance reward batch `[1,1,1]` normalizes without any
division by zero (the denominator is strictly positive) to the finite vector
`[0,0,0]`; and each sample's per-action reward vector is zero everywhere
except the final action slot, which holds the sample's normalized scalar. -/
theorem claim_C8_reward_normalization :
    (normalizeReturns [1, 1, 1] = [0, 0, 0] ∧ 0 < sampleStd [1, 1, 1] + 1e-30) ∧
      ∀ (n : ℕ) (ret : ℝ), 1 ≤ n →
        (rewardVec n ret).length = n ∧
          (rewardVec n ret).getD (n - 1) 0 = ret ∧
          ∀ i, i < n - 1 → (rewardVec n ret).getD i 0 = 0 := by
  have hpos : (0 : ℝ) < sampleStd [1, 1, 1] + 1e-30 := by
    have h1 : (0 : ℝ) ≤ sampleStd [1, 1, 1] := Real.sqrt_nonneg _
    have h2 : (0 : ℝ) < 1e-30 := by norm_num
    linarith
  refine ⟨⟨?_, hpos⟩, ?_⟩
  · have hm : listMean [1, 1, 1] = 1 := by
      simp [listMean]
      norm_num
    simp [normalizeReturns, hm]
  · intro n ret hn
    unfold rewardVec
    refine ⟨by simp, ?_, ?_⟩
    · rw [List.getD_eq_getElem _ _ (by simp; omega), List.getElem_set, if_pos rfl]
    · intro i hi
      rw [List.getD_eq_getElem _ _ (by simp; omega), List.getElem_set, if_neg (by omega)]
      simp

/-- Witness for C8 at `n = 2`, `ret = 7`, checking slot 0 and the final
slot. -/
theorem claim_C8_reward_normalization_witness :
    normalizeReturns [1, 1, 1] = [0, 0, 0] ∧
      (rewardVec 2 7).getD 1 0 = 7 ∧ (rewardVec 2 7).getD 0 0 = 0 :=
  ⟨claim_C8_reward_normalization.1.1,
    (claim_C8_reward_normalization.2 2 7 (by decide)).2.1,
    (claim_C8_reward_normalization.2 2 7 (by decide)).2.2 0 (by decide)⟩

/-! ## C9: tokenize_dialogue length bound and odd-count fixup -/

private theorem sumLens_append (a b : List (List ℕ)) :
    sumLens (a ++ b) = sumLens a + sumLens b := by
  simp [sumLens]

private theorem sumLens_nil : sumLens [] = 0 := rfl

private theorem sumLens_cons (a : List ℕ) (l : List (List ℕ)) :
    sumLens (a :: l) = a.length + sumLens l := by
  simp [sumLens]

private theorem sumLens_singleton (a : List ℕ) : sumLens [a] = a.length := by
  simp [sumLens]

private theorem pyFrom_neg_length (ctx : ℤ) (l : List ℕ) (h : 1 ≤ ctx) :
    ((pyFrom (-ctx) l).length : ℤ) = min ctx (l.length : ℤ) := by
  unfold pyFrom pyIdx
  rw [if_pos (by omega : -ctx < 0), List.length_drop]
  rcases le_total ctx (l.length : ℤ) with hc | hc
  · rw [min_eq_left hc]
    omega
  · rw [min_eq_right hc]
    omega

private theorem pyTake_length (ctx : ℤ) (l : List ℕ) (h : 1 ≤ ctx) :
    ((pySlice 0 ctx l).length : ℤ) = min ctx (l.length : ℤ) := by
  unfold pySlice pyIdx
  rw [if_neg (by omega : ¬ (ctx < 0)), if_neg (by omega : ¬ ((0 : ℤ) < 0))]
  rw [List.length_drop, List.length_take]
  rcases le_total ctx (l.length : ℤ) with hc | hc
  · rw [min_eq_left hc]
    omega
  · rw [min_eq_right hc]
    omega

private theorem tdLeftLoop_sum_le (ds : List (List ℕ)) :
    ∀ ctx : ℤ, 1 ≤ ctx → (sumLens (tdLeftLoop ds ctx) : ℤ) ≤ ctx := by
  induction ds with
  | nil =>
      intro ctx h
      simp only [tdLeftLoop, sumLens_nil, Nat.cast_zero]
      omega
  | cons p rest ih =>
      intro ctx h
      have hlen := pyFrom_neg_length ctx p h
      have htl : ((pyFrom (-ctx) p).length : ℤ) ≤ ctx := by
        rw [hlen]; exact min_le_left _ _
      simp only [tdLeftLoop]
      split_ifs with hc
      · rw [sumLens_singleton]
        omega
      · rw [sumLens_append, sumLens_singleton]
        have h2 : 1 ≤ ctx - ((pyFrom (-ctx) p).length : ℤ) := by omega
        have hrec := ih _ h2
        push_cast
        omega

private theorem tdLeftLoop_head_ne_nil (ds : List (List ℕ)) :
    ∀ ctx : ℤ, 1 ≤ ctx → (sumLens (tdLeftLoop ds ctx) : ℤ) = ctx →
      (tdLeftLoop ds ctx).getD 0 [] ≠ [] := by
  induction ds with
  | nil =>
      intro ctx h hs
      exfalso
      simp only [tdLeftLoop, sumLens_nil, Nat.cast_zero] at hs
      omega
  | cons p rest ih =>
      intro ctx h hs
      have hlen := pyFrom_neg_length ctx p h
      have htl : ((pyFrom (-ctx) p).length : ℤ) ≤ ctx := by
        rw [hlen]; exact min_le_left _ _
      simp only [tdLeftLoop] at hs ⊢
      split_ifs at hs ⊢ with hc
      · rw [List.getD_cons_zero]
        intro hemp
        rw [hemp] at hc
        simp at hc
        omega
      · have h2 : 1 ≤ ctx - ((pyFrom (-ctx) p).length : ℤ) := by omega
        rw [sumLens_append, sumLens_singleton] at hs
        have hrec : (sumLens (tdLeftLoop rest (ctx - ((pyFrom (-ctx) p).length : ℤ))) : ℤ)
            = ctx - ((pyFrom (-ctx) p).length : ℤ) := by
          push_cast at hs ⊢
          omega
        have hne := ih _ h2 hrec
        have hnil : tdLeftLoop rest (ctx - ((pyFrom (-ctx) p).length : ℤ)) ≠ [] := by
          intro h0
          rw [h0] at hne
          exact hne rfl
        rcases List.exists_cons_of_ne_nil hnil with ⟨a, t, hat⟩
        rw [hat]
        rw [hat] at hne
        simpa using hne

private theorem tdRightLoop_sum_le (ds : List (List ℕ)) :
    ∀ ctx : ℤ, 1 ≤ ctx → (sumLens (tdRightLoop ds ctx) : ℤ) ≤ ctx := by
  induction ds with
  | nil =>
      intro ctx h
      simp only [tdRightLoop, sumLens_nil, Nat.cast_zero]
      omega
  | cons p rest ih =>
      intro ctx h
      have hlen := pyTake_length ctx p h
      have htl : ((pySlice 0 ctx p).length : ℤ) ≤ ctx := by
        rw [hlen]; exact min_le_left _ _
      simp only [tdRightLoop]
      split_ifs with hc
      · rw [sumLens_singleton]
        omega
      · rw [sumLens_cons]
        have h2 : 1 ≤ ctx - ((pySlice 0 ctx p).length : ℤ) := by omega
        have hrec := ih _ h2
        push_cast
        omega

/-- C9 counterexample: at `max_length = 0` the python slice `l[-0:]` keeps the
whole phrase, so the output total (here 2 tokens) exceeds `max_length`,
refuting the claim's "for every max_length" length bound. -/
theorem claim_C9_counterexample :
    ¬ ((sumLens (tokenize_dialogue "left" ⟨"left", 9⟩ 0 [[5, 7], [6]]) : ℤ) ≤ 0) := by
  decide

/-- C9 (amended to `max_length ≥ 1`): the per-turn token lists total at most
`max_length` (for both truncation directions); under left truncation the
returned turn count is always even, and whenever the truncation loop kept an
odd number of turns the returned list starts with the synthetic single-token
`[bos]` prompt turn (with one token first removed from the kept first turn
when the total already equals `max_length`, preserving the bound). -/
theorem claim_C9_tokenize_length_bound (sideArg : String) (bos : ℕ) (maxLength : ℤ)
    (dialogue : List (List ℕ)) (hmax : 1 ≤ maxLength) :
    (sumLens (tokenize_dialogue sideArg ⟨"left", bos⟩ maxLength dialogue) : ℤ) ≤ maxLength ∧
      2 ∣ (tokenize_dialogue sideArg ⟨"left", bos⟩ maxLength dialogue).length ∧
      ((tdLeftLoop dialogue.reverse maxLength).length % 2 = 1 →
        (tokenize_dialogue sideArg ⟨"left", bos⟩ maxLength dialogue).getD 0 [] = [bos]) ∧
      (sumLens (tokenize_dialogue sideArg ⟨"right", bos⟩ maxLength dialogue) : ℤ)
        ≤ maxLength := by
  have hleft : tokenize_dialogue sideArg ⟨"left", bos⟩ maxLength dialogue
      = tdLeft bos maxLength dialogue := by
    simp [tokenize_dialogue]
  have hright : tokenize_dialogue sideArg ⟨"right", bos⟩ maxLength dialogue
      = tdRightLoop dialogue maxLength := by
    simp [tokenize_dialogue]
  rw [hleft, hright]
  have hsum := tdLeftLoop_sum_le dialogue.reverse maxLength hmax
  refine ⟨?_, ?_, ?_, tdRightLoop_sum_le dialogue maxLength hmax⟩
  · -- the length bound survives the odd-count fixup
    by_cases hodd : (tdLeftLoop dialogue.reverse maxLength).length % 2 = 1
    · by_cases heq : (sumLens (tdLeftLoop dialogue.reverse maxLength) : ℤ) = maxLength
      · have hne : tdLeftLoop dialogue.reverse maxLength ≠ [] := by
          intro h0
          rw [h0] at heq
          rw [sumLens_nil] at heq
          omega
        rcases List.exists_cons_of_ne_nil hne with ⟨h0, t, hat⟩
        have hh0 : h0 ≠ [] := by
          have := tdLeftLoop_head_ne_nil dialogue.reverse maxLength hmax heq
          rw [hat] at this
          simpa using this
        unfold tdLeft
        rw [if_pos hodd, if_pos heq, hat]
        show (sumLens ([bos] :: h0.tail :: t) : ℤ) ≤ maxLength
        rw [hat, sumLens_cons] at heq
        rw [sumLens_cons, sumLens_cons]
        have hb : ([bos] : List ℕ).length = 1 := rfl
        have htail : h0.tail.length + 1 = h0.length := by
          cases h0 with
          | nil => exact absurd rfl hh0
          | cons a l => simp
        omega
      · unfold tdLeft
        rw [if_pos hodd, if_neg heq, sumLens_cons]
        have hb : ([bos] : List ℕ).length = 1 := rfl
        omega
    · unfold tdLeft
      rw [if_neg hodd]
      exact hsum
  · -- the returned turn count is even
    by_cases hodd : (tdLeftLoop dialogue.reverse maxLength).length % 2 = 1
    · by_cases heq : (sumLens (tdLeftLoop dialogue.reverse maxLength) : ℤ) = maxLength
      · have hne : tdLeftLoop dialogue.reverse maxLength ≠ [] := by
          intro h0
          rw [h0] at heq
          rw [sumLens_nil] at heq
          omega
        rcases List.exists_cons_of_ne_nil hne with ⟨h0, t, hat⟩
        unfold tdLeft
        rw [if_pos hodd, if_pos heq, hat]
        show 2 ∣ ([bos] :: h0.tail :: t).length
        rw [hat] at hodd
        simp only [List.length_cons] at hodd ⊢
        omega
      · unfold tdLeft
        rw [if_pos hodd, if_neg heq]
        simp only [List.length_cons]
        omega
    · unfold tdLeft
      rw [if_neg hodd]
      omega
  · -- when the kept turn count is odd, the result starts with [bos]
    intro hk
    unfold tdLeft
    rw [if_pos hk]
    rfl

/-- Witness for C9 at `max_length = 4` and the dialogue
`[[1,2],[3],[4,5],[6]]`, whose truncation keeps an odd number of turns. -/
theorem claim_C9_tokenize_length_bound_witness :
    (1 : ℤ) ≤ 4 ∧
      (sumLens (tokenize_dialogue "x" ⟨"left", 9⟩ 4 [[1, 2], [3], [4, 5], [6]]) : ℤ) ≤ 4 ∧
      (tokenize_dialogue "x" ⟨"left", 9⟩ 4 [[1, 2], [3], [4, 5], [6]]).getD 0 [] = [9] :=
  ⟨by decide,
    (claim_C9_tokenize_length_bound "x" 9 4 [[1, 2], [3], [4, 5], [6]] (by decide)).1,
    (claim_C9_tokenize_length_bound "x" 9 4 [[1, 2], [3], [4, 5], [6]]
      (by decide)).2.2.1 (by decide)⟩

/-! ## C6: clipped surrogate policy loss at ratio 1 -/

private theorem zipWith_replicate_right_eq (f : ℝ → ℝ → ℝ) :
    ∀ (l : List ℝ) (n : ℕ) (b : ℝ), l.length ≤ n →
      List.zipWith f l (List.replicate n b) = l.map (fun a => f a b) := by
  intro l
  induction l with
  | nil => simp
  | cons a t ih =>
      intro n b h
      cases n with
      | zero => simp at h
      | succ m =>
          rw [List.replicate_succ]
          simp only [List.zipWith_cons_cons, List.map_cons]
          rw [ih m b (by simpa using h)]

private theorem sum_map_negate (l : List ℝ) : (l.map (fun a => -a)).sum = -l.sum := by
  induction l with
  | nil => simp
  | cons a t ih =>
      simp only [List.map_cons, List.sum_cons, ih]
      ring

/-- C6: for a trajectory whose recomputed log-probabilities equal the stored
old log-probabilities (so every probability ratio is `exp 0 = 1`) and whose
advantages are positive at every token, the clipped surrogate policy loss
equals `-mean(advantage)`. -/
theorem claim_C6_pg_loss_at_ratio_one (cliprange : ℝ)
    (adv logprob old_logprob : List ℝ)
    (hne : adv ≠ [])
    (heq : logprob = old_logprob)
    (hlen : adv.length = old_logprob.length)
    (hcr : 0 ≤ cliprange)
    (hpos : ∀ a ∈ adv, 0 < a) :
    pgLoss cliprange adv (ratios logprob old_logprob) = -(listMean adv) := by
  subst heq
  have hr : ratios logprob logprob = List.replicate logprob.length 1 := by
    unfold ratios
    rw [List.zipWith_same]
    simp [Real.exp_zero]
  have hclamp : clampR 1 (1 - cliprange) (1 + cliprange) = 1 := by
    unfold clampR
    rw [max_eq_left (by linarith), min_eq_left (by linarith)]
  unfold pgLoss
  rw [hr]
  rw [zipWith_replicate_right_eq _ adv logprob.length 1 (le_of_eq hlen)]
  rw [zipWith_replicate_right_eq _ adv logprob.length 1 (le_of_eq hlen)]
  rw [hclamp]
  show listMean (List.zipWith max (List.map (fun a => -a * 1) adv)
    (List.map (fun a => -a * 1) adv)) = -listMean adv
  rw [List.zipWith_same]
  have hmax : (adv.map (fun a => -a * 1)).map (fun a => max a a) =
      adv.map (fun a => -a) := by
    rw [List.map_map]
    apply List.map_congr_left
    intro a _
    simp
  rw [hmax]
  unfold listMean
  rw [sum_map_negate, List.length_map, neg_div]

/-- Witness for C6 at `cliprange = 1/5`, `adv = [1,2]`,
`logprob = old_logprob = [0,0]`. -/
theorem claim_C6_pg_loss_at_ratio_one_witness :
    (([(1 : ℝ), 2] : List ℝ) ≠ []) ∧ ((0 : ℝ) ≤ 1 / 5) ∧
      pgLoss (1 / 5) [1, 2] (ratios [0, 0] [0, 0]) = -(listMean [1, 2]) :=
  ⟨by simp, by norm_num,
    claim_C6_pg_loss_at_ratio_one (1 / 5) [1, 2] [0, 0] [0, 0] (by simp) rfl rfl
      (by norm_num)
      (by
        intro a ha
        simp only [List.mem_cons, List.not_mem_nil, or_false] at ha
        rcases ha with rfl | rfl <;> norm_num)⟩

/-! ## C3: whitening scope and detaching of advantages -/

/-- C3 counterexample: the advantages the minibatch step hands to the policy
loss are `whiten` of the single trajectory's advantages, which differs from
the corresponding chunk of whitening applied across the batch of
trajectories: for the batch `[[5,6],[1,2]]`, the trajectory-0 slice of batch
whitening has a positive first entry while the code's value has a negative
first entry. -/
theorem claim_C3_counterexample :
    (advPipeline [5, 6]).data ≠ batchWhitenFirstChunk [5, 6] [1, 2] := by
  intro hcontra
  have hm1 : listMean [5, 6] = 11 / 2 := by
    simp [listMean]
    norm_num
  have hv1 : popVar [5, 6] = 1 / 4 := by
    simp [popVar, hm1]
    norm_num
  have hs1 : 0 < Real.sqrt (popVar [5, 6] + whitenEps) := by
    apply Real.sqrt_pos.mpr
    rw [hv1]
    norm_num [whitenEps]
  have h1 : (advPipeline [5, 6]).data.getD 0 0 < 0 := by
    show (whitenR [5, 6]).getD 0 0 < 0
    have : (whitenR [5, 6]).getD 0 0 =
        (5 - listMean [5, 6]) / Real.sqrt (popVar [5, 6] + whitenEps) := by
      simp [whitenR]
    rw [this, hm1]
    exact div_neg_of_neg_of_pos (by norm_num) hs1
  have hm2 : listMean [5, 6, 1, 2] = 7 / 2 := by
    simp [listMean]
    norm_num
  have hv2 : popVar [5, 6, 1, 2] = 17 / 4 := by
    simp [popVar, hm2]
    norm_num
  have hs2 : 0 < Real.sqrt (popVar [5, 6, 1, 2] + whitenEps) := by
    apply Real.sqrt_pos.mpr
    rw [hv2]
    norm_num [whitenEps]
  have h2 : 0 < (batchWhitenFirstChunk [5, 6] [1, 2]).getD 0 0 := by
    have : (batchWhitenFirstChunk [5, 6] [1, 2]).getD 0 0 =
        (5 - listMean [5, 6, 1, 2]) /
          Real.sqrt (popVar [5, 6, 1, 2] + whitenEps) := by
      simp [batchWhitenFirstChunk, whitenR]
    rw [this, hm2]
    exact div_pos (by norm_num) hs2
  rw [hcontra] at h1
  linarith

private theorem sum_map_sub_const (l : List ℝ) (m : ℝ) :
    (l.map (fun x => x - m)).sum = l.sum - l.length * m := by
  induction l with
  | nil => simp
  | cons a t ih =>
      simp only [List.map_cons, List.sum_cons, List.length_cons, ih]
      push_cast
      ring

/-- C3 (amended): once computed, each trajectory's advantages are whitened
across the tokens of that single trajectory — the size-1 minibatch, not the
batch of trajectories — yielding zero mean over the trajectory, and are
detached from the computation graph before the policy loss consumes them. -/
theorem claim_C3_whiten_detach (cliprange : ℝ) (adv logprob old_logprob : List ℝ)
    (hne : adv ≠ []) :
    (advPipeline adv).tracked = false ∧
      (advPipeline adv).data = whitenR adv ∧
      (advPipeline adv).data.sum = 0 ∧
      minibatchPolicyLoss cliprange adv logprob old_logprob =
        pgLoss cliprange (whitenR adv) (ratios logprob old_logprob) := by
  have hn : (adv.length : ℝ) ≠ 0 := by
    have h0 : adv.length ≠ 0 := fun h => hne (List.length_eq_zero.mp h)
    exact_mod_cast h0
  refine ⟨rfl, rfl, ?_, rfl⟩
  show (whitenR adv).sum = 0
  unfold whitenR
  simp only [div_eq_mul_inv]
  rw [List.sum_map_mul_right, sum_map_sub_const]
  have hcancel : (adv.length : ℝ) * listMean adv = adv.sum := by
    unfold listMean
    field_simp
  rw [hcancel, sub_self, zero_mul]

/-- Witness for C3 (amended) at the trajectory advantages `[1,2]`. -/
theorem claim_C3_whiten_detach_witness :
    (([(1 : ℝ), 2] : List ℝ) ≠ []) ∧
      (advPipeline [1, 2]).tracked = false ∧ (advPipeline [1, 2]).data.sum = 0 :=
  ⟨by simp,
    (claim_C3_whiten_detach 0 [1, 2] [] [] (by simp)).1,
    (claim_C3_whiten_detach 0 [1, 2] [] [] (by simp)).2.2.1⟩

/-! ## C4: sub-batched STATE 2 forward pass -/

private theorem pyIdx_ofNat (len a : ℕ) (ha : a ≤ len) : pyIdx len (a : ℤ) = a := by
  unfold pyIdx
  rw [if_neg (by omega)]
  omega

private theorem pySlice_natCast {α : Type} (a b : ℕ) (l : List α) (ha : a ≤ l.length)
    (hb : b ≤ l.length) : pySlice (a : ℤ) (b : ℤ) l = (l.take b).drop a := by
  unfold pySlice
  rw [pyIdx_ofNat _ _ ha, pyIdx_ofNat _ _ hb]

private theorem take_drop_length {α : Type} (l : List α) (a b : ℕ) (hb : b ≤ l.length) :
    ((l.take b).drop a).length = b - a := by
  rw [List.length_drop, List.length_take]
  omega

private theorem take_drop_getD {α : Type} (l : List α) (a b j : ℕ) (d : α)
    (hb : b ≤ l.length) (hj : j < b - a) :
    ((l.take b).drop a).getD j d = l.getD (a + j) d := by
  have h1 : j < ((l.take b).drop a).length := by
    rw [take_drop_length l a b hb]
    exact hj
  rw [List.getD_eq_getElem _ _ h1, List.getD_eq_getElem _ _ (show a + j < l.length by omega),
    List.getElem_drop, List.getElem_take]

private theorem getD_map_range {γ : Type} (g : ℕ → γ) (n k : ℕ) (d : γ) (hk : k < n) :
    ((List.range n).map g).getD k d = g k := by
  rw [List.getD_eq_getElem _ _ (by simpa using hk), List.getElem_map, List.getElem_range]

private theorem getD_zipWith_poly {α β γ : Type} (f : α → β → γ) (l1 : List α)
    (l2 : List β) (j : ℕ) (d1 : α) (d2 : β) (d3 : γ)
    (h1 : j < l1.length) (h2 : j < l2.length) :
    (List.zipWith f l1 l2).getD j d3 = f (l1.getD j d1) (l2.getD j d2) := by
  rw [List.getD_eq_getElem _ _ (by rw [List.length_zipWith]; exact lt_min h1 h2),
    List.getElem_zipWith, List.getD_eq_getElem _ _ h1, List.getD_eq_getElem _ _ h2]

private theorem maxLenOf_const (L : ℕ) :
    ∀ seqs : List (List ℕ), seqs ≠ [] → (∀ s ∈ seqs, s.length = L) → maxLenOf seqs = L
  | [], h, _ => absurd rfl h
  | [a], _, h => by
      show max a.length 0 = L
      rw [h a (List.mem_singleton_self a)]
      exact Nat.max_zero L
  | a :: b :: t, _, h => by
      have hrec := maxLenOf_const L (b :: t) (by simp)
        (fun s hs => h s (List.mem_cons_of_mem _ hs))
      show max a.length (maxLenOf (b :: t)) = L
      rw [hrec, h a (List.mem_cons_self _ _)]
      exact max_self L

private theorem collate_const (padId L : ℕ) (seqs : List (List ℕ))
    (hne : seqs ≠ []) (h : ∀ s ∈ seqs, s.length = L) : collate padId seqs = seqs := by
  unfold collate
  rw [maxLenOf_const L seqs hne h]
  have hmap : ∀ s ∈ seqs, leftPad padId L s = s := by
    intro s hsm
    unfold leftPad
    rw [h s hsm, Nat.sub_self]
    rfl
  have hmid : List.map (leftPad padId L) seqs = List.map id seqs :=
    List.map_congr_left hmap
  rw [hmid, List.map_id]

private theorem flatten_range_mul {γ : Type} (g : ℕ → γ) (b : ℕ) :
    ∀ a : ℕ,
      ((List.range a).map (fun i => (List.range b).map (fun j => g (i * b + j)))).flatten
        = (List.range (a * b)).map g := by
  intro a
  induction a with
  | zero => simp
  | succ n ih =>
      rw [List.range_succ, List.map_append, List.flatten_append, ih]
      have hmul : (n + 1) * b = n * b + b := by ring
      rw [hmul, List.range_add, List.map_append]
      congr 1
      simp [Function.comp]

private theorem evalOne_lengths (lpF refLpF vF : List ℕ → List ℚ) (q r : List ℕ)
    (hlp : (lpF (q ++ r)).length = (q ++ r).length - 1)
    (href : (refLpF (q ++ r)).length = (q ++ r).length - 1)
    (hv : (vF (q ++ r)).length = (q ++ r).length)
    (hq : 2 ≤ q.length) :
    (evalOne lpF refLpF vF q r).1.length = r.length ∧
      (evalOne lpF refLpF vF q r).2.1.length = r.length ∧
      (evalOne lpF refLpF vF q r).2.2.length = r.length := by
  have happ : (q ++ r).length = q.length + r.length := List.length_append q r
  refine ⟨?_, ?_, ?_⟩
  · show (pySlice ((q.length : ℤ) - 1) ((q.length : ℤ) + r.length - 1)
      (lpF (q ++ r))).length = r.length
    unfold pySlice pyIdx
    rw [if_neg (show ¬ ((q.length : ℤ) - 1 < 0) by omega),
      if_neg (show ¬ ((q.length : ℤ) + r.length - 1 < 0) by omega),
      List.length_drop, List.length_take]
    omega
  · show (pySlice ((q.length : ℤ) - 1) ((q.length : ℤ) + r.length - 1)
      (refLpF (q ++ r))).length = r.length
    unfold pySlice pyIdx
    rw [if_neg (show ¬ ((q.length : ℤ) - 1 < 0) by omega),
      if_neg (show ¬ ((q.length : ℤ) + r.length - 1 < 0) by omega),
      List.length_drop, List.length_take]
    omega
  · show (pySlice ((q.length : ℤ) - 1 - 1) ((q.length : ℤ) + r.length - 1 - 1)
      (vF (q ++ r))).length = r.length
    unfold pySlice pyIdx
    rw [if_neg (show ¬ ((q.length : ℤ) - 1 - 1 < 0) by omega),
      if_neg (show ¬ ((q.length : ℤ) + r.length - 1 - 1 < 0) by omega),
      List.length_drop, List.length_take]
    omega

private theorem evalBatch_eq_map (padId : ℕ) (lpF refLpF vF : List ℕ → List ℚ)
    (queries responses : List (List ℕ)) (fbs L : ℕ)
    (hrl : responses.length = queries.length)
    (hdvd : fbs ∣ queries.length)
    (hL : ∀ j, j < queries.length →
      ((queries.getD j []) ++ (responses.getD j [])).length = L) :
    evalBatch padId lpF refLpF vF queries responses fbs =
      (List.range queries.length).map
        (fun k => evalOne lpF refLpF vF (queries.getD k []) (responses.getD k [])) := by
  unfold evalBatch
  refine Eq.trans (congrArg List.flatten (List.map_congr_left ?_))
    (Eq.trans (flatten_range_mul
      (fun k => evalOne lpF refLpF vF (queries.getD k []) (responses.getD k [])) fbs
      (queries.length / fbs)) (by rw [Nat.div_mul_cancel hdvd]))
  intro i hi
  rw [List.mem_range] at hi
  dsimp only
  have hfpos : 0 < fbs := by
    rcases Nat.eq_zero_or_pos fbs with h0 | h0
    · rw [h0, Nat.div_zero] at hi
      omega
    · exact h0
  have hib : (i + 1) * fbs ≤ queries.length := by
    have h1 : i + 1 ≤ queries.length / fbs := hi
    have h2 := Nat.mul_le_mul_right fbs h1
    rwa [Nat.div_mul_cancel hdvd] at h2
  have hlow : i * fbs ≤ (i + 1) * fbs := Nat.mul_le_mul_right fbs (by omega)
  have hexp : (i + 1) * fbs = i * fbs + fbs := by ring
  have hq : pySlice ((i * fbs : ℕ) : ℤ) (((i + 1) * fbs : ℕ) : ℤ) queries
      = (queries.take ((i + 1) * fbs)).drop (i * fbs) :=
    pySlice_natCast _ _ _ (by omega) hib
  have hr : pySlice ((i * fbs : ℕ) : ℤ) (((i + 1) * fbs : ℕ) : ℤ) responses
      = (responses.take ((i + 1) * fbs)).drop (i * fbs) :=
    pySlice_natCast _ _ _ (by omega) (by omega)
  rw [hq, hr]
  have hqlen : ((queries.take ((i + 1) * fbs)).drop (i * fbs)).length = fbs := by
    rw [take_drop_length _ _ _ hib]
    omega
  have hrlen : ((responses.take ((i + 1) * fbs)).drop (i * fbs)).length = fbs := by
    rw [take_drop_length _ _ _ (by omega)]
    omega
  have hqget : ∀ j, j < fbs →
      ((queries.take ((i + 1) * fbs)).drop (i * fbs)).getD j [] =
        queries.getD (i * fbs + j) [] :=
    fun j hj => take_drop_getD _ _ _ _ _ hib (by omega)
  have hrget : ∀ j, j < fbs →
      ((responses.take ((i + 1) * fbs)).drop (i * fbs)).getD j [] =
        responses.getD (i * fbs + j) [] :=
    fun j hj => take_drop_getD _ _ _ _ _ (by omega) (by omega)
  have hcoll : collate padId
      (List.zipWith (fun x1 x2 => x1 ++ x2)
        ((queries.take ((i + 1) * fbs)).drop (i * fbs))
        ((responses.take ((i + 1) * fbs)).drop (i * fbs)))
      = List.zipWith (fun x1 x2 => x1 ++ x2)
        ((queries.take ((i + 1) * fbs)).drop (i * fbs))
        ((responses.take ((i + 1) * fbs)).drop (i * fbs)) := by
    apply collate_const padId L
    · intro hz
      have := congrArg List.length hz
      rw [List.length_zipWith, hqlen, hrlen] at this
      simp at this
      omega
    · intro s hs
      rw [List.mem_iff_getElem] at hs
      obtain ⟨j, hjlen, hsj⟩ := hs
      have hj : j < fbs := by
        rw [List.length_zipWith, hqlen, hrlen] at hjlen
        omega
      rw [← hsj, List.getElem_zipWith]
      have hjq : j < ((queries.take ((i + 1) * fbs)).drop (i * fbs)).length := by
        rw [hqlen]; exact hj
      have hjr : j < ((responses.take ((i + 1) * fbs)).drop (i * fbs)).length := by
        rw [hrlen]; exact hj
      have e1 : ((queries.take ((i + 1) * fbs)).drop (i * fbs))[j]
          = queries.getD (i * fbs + j) [] :=
        (List.getD_eq_getElem _ _ hjq).symm.trans (hqget j hj)
      have e2 : ((responses.take ((i + 1) * fbs)).drop (i * fbs))[j]
          = responses.getD (i * fbs + j) [] :=
        (List.getD_eq_getElem _ _ hjr).symm.trans (hrget j hj)
      rw [e1, e2]
      exact hL (i * fbs + j) (by omega)
  rw [hcoll]
  apply List.map_congr_left
  intro j hjm
  rw [List.mem_range] at hjm
  dsimp only
  rw [getD_zipWith_poly (fun x1 x2 => x1 ++ x2)
    ((queries.take ((i + 1) * fbs)).drop (i * fbs))
    ((responses.take ((i + 1) * fbs)).drop (i * fbs)) j [] [] []
    (by rw [hqlen]; exact hjm) (by rw [hrlen]; exact hjm)]
  rw [hqget j hjm, hrget j hjm]
  rfl

/-- C4 counterexample, in three parts.  (a) With `batch_size = 3` and
`forward_batch_size = 2 ≤ 3`, `range(int(bs/fbs))` runs once and only 2 of
the 3 trajectories are evaluated.  (b) With trajectories of unequal total
length, the collator pads each sub-batch to its own longest sequence, so a
padded-length-sensitive model sees different inputs sub-batched
(`fbs = 1`, no padding) than full-batch (padding added), and the outputs
differ.  (c) With a query of length 1, the value slice `v[start-1:end-1]`
starts at python index `-1` (the last element) and comes back empty instead
of having the response's length, even for contract-satisfying model stubs. -/
theorem claim_C4_counterexample :
    ((evalBatch 0 lpEx lpEx vEx [[1, 2], [1, 2], [1, 2]] [[3], [3], [3]] 2).length ≠ 3) ∧
      (evalBatch 0 lpEx lpEx vEx [[1], [2]] [[3], [4, 5]] 1
        ≠ evalBatch 0 lpEx lpEx vEx [[1], [2]] [[3], [4, 5]] 2) ∧
      (((evalBatch 0 lpEx lpEx vEx [[1]] [[3]] 1).getD 0 ([], [], [])).2.2.length
        ≠ ([(3 : ℕ)] : List ℕ).length) := by
  refine ⟨by decide, by decide, by decide⟩

/-- C4 (amended): provided `forward_batch_size` is positive, does not exceed
and divides `batch_size`, all query+response concatenations of the batch have
equal total length (so the collator pads nothing and sub-batch composition
cannot change any model input), and every query has at least 2 tokens, the
sub-batched STATE 2 evaluation produces the logprob, reference-logprob and
value arrays of all `batch_size` trajectories, concatenated in order, equal
to a single full-batch evaluation; and, when the models meet their output
length contract, each per-trajectory array has the trajectory's response
length. -/
theorem claim_C4_subbatch_refinement (padId : ℕ) (lpF refLpF vF : List ℕ → List ℚ)
    (queries responses : List (List ℕ)) (fbs : ℕ)
    (hrl : responses.length = queries.length)
    (hfpos : 0 < fbs)
    (hfle : fbs ≤ queries.length)
    (hdvd : fbs ∣ queries.length)
    (heqlen : ∀ i ∈ List.range queries.length, ∀ j ∈ List.range queries.length,
      (queries.getD i [] ++ responses.getD i []).length =
        (queries.getD j [] ++ responses.getD j []).length) :
    (evalBatch padId lpF refLpF vF queries responses fbs =
        evalBatch padId lpF refLpF vF queries responses queries.length) ∧
      (evalBatch padId lpF refLpF vF queries responses fbs).length = queries.length ∧
      ((∀ s, (lpF s).length = s.length - 1) → (∀ s, (refLpF s).length = s.length - 1) →
        (∀ s, (vF s).length = s.length) → (∀ q ∈ queries, 2 ≤ q.length) →
        ∀ k, k < queries.length →
          ((evalBatch padId lpF refLpF vF queries responses fbs).getD k
              ([], [], [])).1.length = (responses.getD k []).length ∧
            ((evalBatch padId lpF refLpF vF queries responses fbs).getD k
              ([], [], [])).2.1.length = (responses.getD k []).length ∧
            ((evalBatch padId lpF refLpF vF queries responses fbs).getD k
              ([], [], [])).2.2.length = (responses.getD k []).length) := by
  by_cases hbs : queries.length = 0
  · refine ⟨?_, ?_, ?_⟩
    · simp [evalBatch, hbs]
    · simp [evalBatch, hbs]
    · intro _ _ _ _ k hk
      omega
  · have hbs' : 0 < queries.length := Nat.pos_of_ne_zero hbs
    have hL : ∀ j, j < queries.length →
        ((queries.getD j []) ++ (responses.getD j [])).length =
          ((queries.getD 0 []) ++ (responses.getD 0 [])).length := by
      intro j hj
      exact heqlen j (List.mem_range.mpr hj) 0 (List.mem_range.mpr hbs')
    have hsub := evalBatch_eq_map padId lpF refLpF vF queries responses fbs _ hrl hdvd hL
    have hfull := evalBatch_eq_map padId lpF refLpF vF queries responses queries.length _
      hrl (dvd_refl _) hL
    refine ⟨?_, ?_, ?_⟩
    · rw [hsub, hfull]
    · rw [hsub, List.length_map, List.length_range]
    · intro hlp href hv hq2 k hk
      rw [hsub, getD_map_range _ _ _ _ hk]
      have hqmem : queries.getD k [] ∈ queries := by
        rw [List.getD_eq_getElem _ _ hk]
        exact List.getElem_mem _
      exact evalOne_lengths lpF refLpF vF _ _ (hlp _) (href _) (hv _) (hq2 _ hqmem)

/-- Witness for C4 (amended) at the two-trajectory batch
`queries = [[1,2],[3,4]]`, `responses = [[5],[6]]`, `forward_batch_size = 1`,
with contract-satisfying model stubs. -/
theorem claim_C4_subbatch_refinement_witness :
    (evalBatch 0 lpEx lpEx vEx [[1, 2], [3, 4]] [[5], [6]] 1 =
        evalBatch 0 lpEx lpEx vEx [[1, 2], [3, 4]] [[5], [6]]
          ([[1, 2], [3, 4]] : List (List ℕ)).length) ∧
      (evalBatch 0 lpEx lpEx vEx [[1, 2], [3, 4]] [[5], [6]] 1).length =
        ([[1, 2], [3, 4]] : List (List ℕ)).length ∧
      ((evalBatch 0 lpEx lpEx vEx [[1, 2], [3, 4]] [[5], [6]] 1).getD 0
          ([], [], [])).1.length = (([(5 : ℕ)] : List ℕ)).length :=
  ⟨(claim_C4_subbatch_refinement 0 lpEx lpEx vEx [[1, 2], [3, 4]] [[5], [6]] 1 rfl
      (by decide) (by decide) (by decide) (by decide)).1,
    (claim_C4_subbatch_refinement 0 lpEx lpEx vEx [[1, 2], [3, 4]] [[5], [6]] 1 rfl
      (by decide) (by decide) (by decide) (by decide)).2.1,
    ((claim_C4_subbatch_refinement 0 lpEx lpEx vEx [[1, 2], [3, 4]] [[5], [6]] 1 rfl
      (by decide) (by decide) (by decide) (by decide)).2.2
      (fun s => by simp [lpEx]) (fun s => by simp [lpEx]) (fun s => by simp [vEx])
      (by decide) 0 (by decide)).1⟩

end Theorems

end TrlxSpec
